import Mathlib

/-!
Shallow embedding of the internal-module dependency-override consistency
validator from cmd/cmrel/cmd/validate_gomod.go (cert-manager/release).

The validator walks a repository, parses every go.mod file into an
`internalModule`, partitions the result into one core module (the go.mod at
the repository root) and submodules, derives a canonical replace map from the
core module, and runs four independent rule checkers whose findings are
concatenated.  The filesystem walk and the go.mod parser are out of scope
(external collaborators); the embedding starts from the list of parsed
module declarations the walk produces.

Violations are modelled as structured records (module name, dependency path,
observed value, expected value), matching the data each fmt.Errorf call in
the source interpolates; `renderViolation` reproduces the exact message
templates of the source.
-/

/-- String helper mirroring strings.TrimSuffix: drop `suf` from the end of
`s` when it is a suffix, otherwise return `s` unchanged.  Implemented on the
underlying character list so that closed instances evaluate in the kernel. -/
def trimSuffix (s suf : String) : String :=
  if suf.data.isSuffixOf s.data then ⟨s.data.take (s.data.length - suf.data.length)⟩ else s

/-- String helper mirroring strings.Join(l, ", "). -/
def joinComma : List String → String
  | [] => ""
  | [x] => x
  | x :: y :: rest => x ++ ", " ++ joinComma (y :: rest)

/-- Rendering of the %q format verb for the plain module paths and version
strings this tool prints (no characters needing Go escaping). -/
def goQuote (s : String) : String := "\"" ++ s ++ "\""

/-- module.Version from golang.org/x/mod/module: a module path together with
a version string.  An empty version denotes a local filesystem directory
target rather than a versioned artifact. -/
structure ModVersion where
  path : String
  version : String
deriving DecidableEq

/-- One replace directive of a go.mod file (modfile.Replace): when resolving
`old`, substitute `new`.  The validator only ever consults old.path. -/
structure ReplaceStmt where
  old : ModVersion
  new : ModVersion
deriving DecidableEq

/-- The fields of the parsed go.mod file (modfile.File) that the validator
reads.  `goVersion` models the f.Go pointer field, whose Version the
validator dereferences: it is none exactly when the go directive is absent
and the pointer is nil.  `require` lists the Mod of each require directive
(the Indirect flag is never read); `replace` lists the replace directives. -/
structure ModFile where
  modulePath : String
  goVersion : Option String
  require : List ModVersion
  replace : List ReplaceStmt
deriving DecidableEq

/-- One discovered internal module, as built by findInternalModules:
Name is f.Module.Mod.Path, LocalRepoPath is the go.mod path relative to the
repository root (strings.TrimPrefix(path, root+"/")), Module the parsed
file.  The absolute FullGoModPath is omitted: the only use the validator
makes of it, the path == filepath.Join(root, "go.mod") test selecting the
core module, is equivalent to LocalRepoPath = "go.mod". -/
structure InternalModule where
  Name : String
  LocalRepoPath : String
  Module : ModFile
deriving DecidableEq

/-- internalModuleList: all discovered modules in walk order, the core
module (the one at the repository root) and the remaining submodules. -/
structure InternalModuleList where
  modules : List InternalModule
  coreModule : InternalModule
  submodules : List InternalModule
deriving DecidableEq

/-- dummyCoreImportVersion: the expected version string for any requirement
of an internal module. -/
def dummyCoreImportVersion : String := "v0.0.0-00010101000000-000000000000"

/-- hardLocalReplace: the hardcoded path from submodules to the root of the
repository. -/
def hardLocalReplace : String := "../../"

/-- internalModuleNames: the Name of every discovered module; the source
stores them as the keys of a map[string]bool used only for membership. -/
def internalModuleNames (iml : InternalModuleList) : List String :=
  iml.modules.map (·.Name)

/-- Membership test on internalModuleNames, the "is this an internal module
name" question the source answers with a map lookup. -/
def isInternalModuleName (iml : InternalModuleList) (p : String) : Bool :=
  (internalModuleNames iml).contains p

/-- Go map assignment m[k] = v on a string-keyed map, modelled on an
association list: overwrite the entry when the key is present, append it
otherwise.  Keys stay distinct, matching map semantics. -/
def mapInsert : List (String × ModVersion) → String → ModVersion → List (String × ModVersion)
  | [], k, v => [(k, v)]
  | e :: rest, k, v => if e.1 = k then (k, v) :: rest else e :: mapInsert rest k v

/-- Go map lookup m[k] returning the value and presence as an Option. -/
def mapLookup (m : List (String × ModVersion)) (k : String) : Option ModVersion :=
  (m.find? (fun e => e.1 = k)).map (·.2)

/-- The local filesystem replacement path synthesized for a submodule:
filepath.Join(hardLocalReplace, strings.TrimSuffix(localRepoPath, "go.mod"))
followed by appending "/".  For the slash-clean relative paths the directory
walk produces (either "go.mod" itself or directory components followed by
"/go.mod", without "." or ".." components), the Join-then-append-slash idiom
is plain concatenation of "../../" with the trimmed path. -/
def localReplacePath (localRepoPath : String) : String :=
  hardLocalReplace ++ trimSuffix localRepoPath "go.mod"

/-- replaceMap construction from findInternalModules: first copy every
replace directive of the core module, then overwrite with a local filesystem
replacement for every submodule path, then overwrite the core module path
with the repository root replacement. -/
def buildReplaceMap (iml : InternalModuleList) : List (String × ModVersion) :=
  let m0 := iml.coreModule.Module.replace.foldl
    (fun acc r => mapInsert acc r.old.path r.new) []
  let m1 := iml.submodules.foldl
    (fun acc s => mapInsert acc s.Module.modulePath ⟨localReplacePath s.LocalRepoPath, ""⟩) m0
  mapInsert m1 iml.coreModule.Module.modulePath ⟨hardLocalReplace, ""⟩

/-- The fatal configuration error of findInternalModules: no go.mod was
found at the repository root. -/
inductive FatalError where
  | missingCoreModule
deriving DecidableEq

/-- The partition the walk callback performs: each discovered module whose
go.mod is exactly at the repository root is recorded as the core module, all
others are appended to the submodule list, in walk order. -/
def partitionWalk (discovered : List InternalModule) :
    Option InternalModule × List InternalModule :=
  discovered.foldl
    (fun acc m =>
      if m.LocalRepoPath = "go.mod" then (some m, acc.2) else (acc.1, acc.2 ++ [m]))
    (none, [])

/-- findInternalModules after the walk and parse have produced `discovered`:
partition into core and submodules, failing with missingCoreModule when no
module sits at the repository root. -/
def findInternalModules (discovered : List InternalModule) :
    Except FatalError InternalModuleList :=
  match partitionWalk discovered with
  | (none, _) => .error .missingCoreModule
  | (some core, subs) => .ok ⟨discovered, core, subs⟩

/-- The structured violations the four rule checkers emit; each constructor
carries exactly the data the corresponding fmt.Errorf call interpolates
(plus, for nonDummyInternalVersion, the observed version, which the message
template omits). -/
inductive Violation where
  | overrideMismatch (moduleName : String) (path : String) (got want : ModVersion)
  | missingOverride (moduleName : String) (path : String) (want : ModVersion)
  | coreHasLocalOverride (paths : List String)
  | nonDummyInternalVersion (moduleName : String) (depPath : String) (got want : String)
  | toolchainVersionMismatch (moduleName : String) (got want : String)
deriving DecidableEq

/-- The module a violation is attributed to (the empty string for the
aggregate core-purity violation, which names no single module). -/
def violationModuleName : Violation → String
  | .overrideMismatch n _ _ _ => n
  | .missingOverride n _ _ => n
  | .coreHasLocalOverride _ => ""
  | .nonDummyInternalVersion n _ _ _ => n
  | .toolchainVersionMismatch n _ _ => n

/-- The exact message template of the override-mismatch error: note that one
uniform template serves every mismatched path, whether it is the core module
path or a third-party dependency. -/
def overrideMismatchMessage (moduleName path gotPath gotVersion wantPath wantVersion : String) :
    String :=
  "module " ++ goQuote moduleName ++ " replaces " ++ goQuote path ++ " with \"" ++
    gotPath ++ " " ++ gotVersion ++ "\", but the expected replacement was \"" ++
    wantPath ++ " " ++ wantVersion ++
    "\". All replaces should match the core go.mod file and all internal modules should have local replacements"

/-- The message each violation is rendered to, reproducing the fmt.Errorf
format strings of the source checkers. -/
def renderViolation : Violation → String
  | .overrideMismatch n p got want =>
      overrideMismatchMessage n p got.path got.version want.path want.version
  | .missingOverride n p want =>
      "module " ++ goQuote n ++ " requires " ++ goQuote p ++ " which is replaced by \"" ++
        want.path ++ " " ++ want.version ++
        "\" in the core module but is not replaced in this module. Submodules should have the same replacements as the core module"
  | .coreHasLocalOverride paths =>
      "core module should have no local (filesystem) replaces, but has: " ++
        goQuote (joinComma paths)
  | .nonDummyInternalVersion n p _ want =>
      "module " ++ goQuote n ++ " imports internal module " ++ goQuote p ++
        " with incorrect version; should be " ++ goQuote want
  | .toolchainVersionMismatch n got want =>
      "module " ++ goQuote n ++ " has Go version " ++ goQuote got ++ " but should have " ++
        goQuote want ++ " to match core go.mod file"

/-- checkCoreModuleReplacements: collect the Old.Path of every core replace
directive whose target version is empty (a local filesystem replace) and,
when any exist, report them all in one aggregate error. -/
def checkCoreModuleReplacements (iml : InternalModuleList) : Option Violation :=
  let localReplaces := iml.coreModule.Module.replace.foldl
    (fun acc r => if r.new.version = "" then acc ++ [r.old.path] else acc) []
  if localReplaces.length > 0 then some (.coreHasLocalOverride localReplaces) else none

/-- The first loop of the checkReplaces module body: scan the module's
replace directives, recording in foundReplaces every Old.Path that has a
replaceMap entry and emitting an overrideMismatch whenever the declared
target differs from the expected one in path or version. -/
def scanReplaces (rm : List (String × ModVersion)) (m : InternalModule) :
    List String × List Violation :=
  m.Module.replace.foldl
    (fun acc r =>
      match mapLookup rm r.old.path with
      | none => acc
      | some expected =>
        if r.new.path = expected.path ∧ r.new.version = expected.version then
          (acc.1 ++ [r.old.path], acc.2)
        else
          (acc.1 ++ [r.old.path],
            acc.2 ++ [.overrideMismatch m.Name r.old.path r.new expected]))
    ([], [])

/-- The second loop of the checkReplaces module body: every requirement on a
path the replaceMap covers must have been seen among the module's own
replace directives, else a missingOverride is emitted carrying the expected
replacement. -/
def requireErrors (rm : List (String × ModVersion)) (found : List String)
    (m : InternalModule) : List Violation :=
  m.Module.require.foldl
    (fun acc req =>
      match mapLookup rm req.path with
      | none => acc
      | some coreReplace =>
        if found.contains req.path then acc
        else acc ++ [.missingOverride m.Name req.path coreReplace])
    []

/-- The checkReplaces loop body for one module. -/
def checkReplacesModule (rm : List (String × ModVersion)) (m : InternalModule) :
    List Violation :=
  let s := scanReplaces rm m
  s.2 ++ requireErrors rm s.1 m

/-- checkReplaces: run the replace/require consistency checks against the
replaceMap for every discovered module, concatenating the findings. -/
def checkReplaces (iml : InternalModuleList) : List Violation :=
  let rm := buildReplaceMap iml
  iml.modules.foldl (fun acc m => acc ++ checkReplacesModule rm m) []

/-- Modelled from the spec: the caller-supplied directImportExemptions set.
The iteration of checkReplaces included in the sources takes no exemption
set; the spec describes a second iteration of the same file, not included in
the sources, in which the missing-override sub-check is skipped when the
required path is the core module's own path and the requiring module's
importPath (recorded as Name by findInternalModules) is in the
caller-supplied directImportExemptions set.  This definition extends
requireErrors with exactly that clause, in the spec's words. -/
def requireErrorsExempt (rm : List (String × ModVersion)) (corePath : String)
    (directImportExemptions : List String) (found : List String)
    (m : InternalModule) : List Violation :=
  m.Module.require.foldl
    (fun acc req =>
      match mapLookup rm req.path with
      | none => acc
      | some coreReplace =>
        if found.contains req.path then acc
        else if req.path = corePath ∧ directImportExemptions.contains m.Name then acc
        else acc ++ [.missingOverride m.Name req.path coreReplace])
    []

/-- Modelled from the spec: the checkReplaces loop body for one module with
the directImportExemptions set threaded to the missing-override sub-check. -/
def checkReplacesModuleExempt (rm : List (String × ModVersion)) (corePath : String)
    (directImportExemptions : List String) (m : InternalModule) : List Violation :=
  let s := scanReplaces rm m
  s.2 ++ requireErrorsExempt rm corePath directImportExemptions s.1 m

/-- Modelled from the spec: checkReplaces with the caller-supplied
directImportExemptions set; with an empty set it coincides with the
sources' checkReplaces. -/
def checkReplacesExempt (iml : InternalModuleList)
    (directImportExemptions : List String) : List Violation :=
  let rm := buildReplaceMap iml
  iml.modules.foldl
    (fun acc m =>
      acc ++ checkReplacesModuleExempt rm iml.coreModule.Module.modulePath
        directImportExemptions m)
    []

/-- checkInternalModuleRequirements: every requirement of every module whose
path is an internal module name must carry the dummy placeholder version. -/
def checkInternalModuleRequirements (iml : InternalModuleList) : List Violation :=
  iml.modules.foldl
    (fun acc m =>
      m.Module.require.foldl
        (fun acc2 req =>
          if isInternalModuleName iml req.path then
            if req.version = dummyCoreImportVersion then acc2
            else acc2 ++ [.nonDummyInternalVersion m.Name req.path req.version
              dummyCoreImportVersion]
          else acc2)
        acc)
    []

/-- Modelled from the spec: the caller-supplied noDummyExemptions set.  The
iteration of checkInternalModuleRequirements included in the sources takes
no exemption set; the spec describes a second iteration, not included in the
sources, that skips a module entirely when its importPath (recorded as Name
by findInternalModules) is in the caller-supplied noDummyExemptions set.
This definition extends checkInternalModuleRequirements with exactly that
clause, in the spec's words. -/
def checkInternalModuleRequirementsExempt (iml : InternalModuleList)
    (noDummyExemptions : List String) : List Violation :=
  iml.modules.foldl
    (fun acc m =>
      if noDummyExemptions.contains m.Name then acc
      else
        m.Module.require.foldl
          (fun acc2 req =>
            if isInternalModuleName iml req.path then
              if req.version = dummyCoreImportVersion then acc2
              else acc2 ++ [.nonDummyInternalVersion m.Name req.path req.version
                dummyCoreImportVersion]
            else acc2)
          acc)
    []

/-- The submodule loop of checkGoVersions.  Each submodule's s.Module.Go is
dereferenced with no nil guard: a none goVersion models the nil pointer,
and the whole check returns none, modelling the runtime panic. -/
def checkGoVersionsAux (coreGoVersion : String) :
    List InternalModule → List Violation → Option (List Violation)
  | [], acc => some acc
  | s :: rest, acc =>
    match s.Module.goVersion with
    | none => none
    | some v =>
      if v = coreGoVersion then checkGoVersionsAux coreGoVersion rest acc
      else checkGoVersionsAux coreGoVersion rest
        (acc ++ [.toolchainVersionMismatch s.Name v coreGoVersion])

/-- checkGoVersions: every submodule must declare the same Go version as the
core module.  The core module's Go directive is dereferenced first, also
with no nil guard; none models the panic on either dereference. -/
def checkGoVersions (iml : InternalModuleList) : Option (List Violation) :=
  match iml.coreModule.Module.goVersion with
  | none => none
  | some coreGoVersion => checkGoVersionsAux coreGoVersion iml.submodules []

/-- The single optional core-purity violation as a list, as appended by
runValidateGoMod. -/
def optionToList : Option Violation → List Violation
  | some v => [v]
  | none => []

/-- The pure validation pass of runValidateGoMod over an already-built
internalModuleList: run the four checkers in source order and concatenate
every finding; the run succeeds exactly when no violation was collected.
A none result models the process dying in checkGoVersions' nil dereference
before any verdict is reached. -/
def validate (iml : InternalModuleList) : Option (Bool × List Violation) :=
  match checkGoVersions iml with
  | none => none
  | some goErrs =>
    let errs := checkReplaces iml ++ optionToList (checkCoreModuleReplacements iml) ++
      checkInternalModuleRequirements iml ++ goErrs
    some (errs.isEmpty, errs)

/-- Modelled from the spec: the validate aggregator with the two
caller-supplied exemption sets threaded to the exemption-aware iterations of
the checkers; with empty sets it coincides with validate. -/
def validateExempt (iml : InternalModuleList) (directImportExemptions : List String)
    (noDummyExemptions : List String) : Option (Bool × List Violation) :=
  match checkGoVersions iml with
  | none => none
  | some goErrs =>
    let errs := checkReplacesExempt iml directImportExemptions ++
      optionToList (checkCoreModuleReplacements iml) ++
      checkInternalModuleRequirementsExempt iml noDummyExemptions ++ goErrs
    some (errs.isEmpty, errs)

/-- The three observable outcomes of a runValidateGoMod invocation: a fatal
configuration error before any checker runs, a runtime panic, or a verdict
with the collected violations. -/
inductive ValidationResult where
  | fatal (e : FatalError)
  | panicked
  | result (ok : Bool) (violations : List Violation)
deriving DecidableEq

/-- runValidateGoMod over the discovered module declarations: partition via
findInternalModules (failing fatally when the core module is missing, with
no checker run), then run the validation pass. -/
def runValidateGoMod (discovered : List InternalModule) : ValidationResult :=
  match findInternalModules discovered with
  | .error e => .fatal e
  | .ok iml =>
    match validate iml with
    | none => .panicked
    | some (ok, errs) => .result ok errs

/-!
### Characterization helpers

flatMap forms of the foldl accumulations above, used to state and prove the
lemmas; each is parametric in the module name and directive list so that the
proofs can proceed by list induction.
-/

/-- flatMap form of the foundReplaces accumulation of scanReplaces. -/
def foundList (rm : List (String × ModVersion)) (l : List ReplaceStmt) : List String :=
  l.flatMap (fun r => if (mapLookup rm r.old.path).isSome then [r.old.path] else [])

/-- flatMap form of the overrideMismatch emissions of scanReplaces. -/
def mismatchList (rm : List (String × ModVersion)) (name : String)
    (l : List ReplaceStmt) : List Violation :=
  l.flatMap (fun r =>
    match mapLookup rm r.old.path with
    | none => []
    | some expected =>
      if r.new.path = expected.path ∧ r.new.version = expected.version then []
      else [.overrideMismatch name r.old.path r.new expected])

/-- flatMap form of the missingOverride emissions of requireErrors. -/
def missingList (rm : List (String × ModVersion)) (found : List String)
    (name : String) (l : List ModVersion) : List Violation :=
  l.flatMap (fun req =>
    match mapLookup rm req.path with
    | none => []
    | some coreReplace =>
      if found.contains req.path then []
      else [.missingOverride name req.path coreReplace])

/-- flatMap form of the missingOverride emissions of requireErrorsExempt. -/
def missingListExempt (rm : List (String × ModVersion)) (corePath : String)
    (directImportExemptions : List String) (found : List String) (name : String)
    (l : List ModVersion) : List Violation :=
  l.flatMap (fun req =>
    match mapLookup rm req.path with
    | none => []
    | some coreReplace =>
      if found.contains req.path then []
      else if req.path = corePath ∧ directImportExemptions.contains name then []
      else [.missingOverride name req.path coreReplace])

/-- flatMap form of the nonDummyInternalVersion emissions for one module. -/
def dummyList (iml : InternalModuleList) (name : String) (l : List ModVersion) :
    List Violation :=
  l.flatMap (fun req =>
    if isInternalModuleName iml req.path then
      if req.version = dummyCoreImportVersion then []
      else [.nonDummyInternalVersion name req.path req.version dummyCoreImportVersion]
    else [])

/-- The toolchain violations one submodule contributes when its go directive
is present. -/
def goVersionViolationList (coreGoVersion : String) (s : InternalModule) : List Violation :=
  match s.Module.goVersion with
  | none => []
  | some v =>
    if v = coreGoVersion then [] else [.toolchainVersionMismatch s.Name v coreGoVersion]

/-!
### Spec-side definitions for the override-map refinement comparison
-/

/-- Number of directory components of a repository-relative directory
string, one per slash. -/
def slashCount (s : String) : Nat := (s.data.filter (· = '/')).length

/-- A chain of n parent-directory steps. -/
def parentPrefix : Nat → String
  | 0 => ""
  | n + 1 => "../" ++ parentPrefix n

/-- Stated from the claim's words, for comparison with localReplacePath (the
target buildReplaceMap actually stores): the path difference between the
consuming module's location and the submodule's location — climb one parent
level per directory component of the consuming module's go.mod location,
then descend into the submodule's directory. -/
def claimedPathDifference (consumerLocalRepoPath subLocalRepoPath : String) : String :=
  parentPrefix (slashCount (trimSuffix consumerLocalRepoPath "go.mod")) ++
    trimSuffix subLocalRepoPath "go.mod"

/-!
### Concrete module fixtures
-/

/-- A core module with no replace directives and no requirements. -/
def c1Core : InternalModule :=
  ⟨"example.com/core", "go.mod", ⟨"example.com/core", some "1.21", [], []⟩⟩

/-- A depth-one submodule requiring the depth-two submodule c1SubB. -/
def c1SubA : InternalModule :=
  ⟨"example.com/a", "a/go.mod",
    ⟨"example.com/a", some "1.21", [⟨"example.com/b", dummyCoreImportVersion⟩], []⟩⟩

/-- A depth-two submodule. -/
def c1SubB : InternalModule :=
  ⟨"example.com/b", "b/c/go.mod", ⟨"example.com/b", some "1.21", [], []⟩⟩

/-- Internal module set with consuming modules at different depths. -/
def c1Iml : InternalModuleList := ⟨[c1Core, c1SubA, c1SubB], c1Core, [c1SubA, c1SubB]⟩

/-- A submodule requiring the core module without declaring any override. -/
def c2Sub : InternalModule :=
  ⟨"example.com/s", "x/y/go.mod",
    ⟨"example.com/s", some "1.21", [⟨"example.com/core", dummyCoreImportVersion⟩], []⟩⟩

/-- Internal module set for the missing-override scenario. -/
def c2Iml : InternalModuleList := ⟨[c1Core, c2Sub], c1Core, [c2Sub]⟩

/-- A submodule requiring the core module at a real (non-placeholder)
version, with the matching local override declared. -/
def c3Sub : InternalModule :=
  ⟨"example.com/s", "x/y/go.mod",
    ⟨"example.com/s", some "1.21", [⟨"example.com/core", "v1.2.3"⟩],
      [⟨⟨"example.com/core", ""⟩, ⟨"../../", ""⟩⟩]⟩⟩

/-- Internal module set for the dummy-version scenario. -/
def c3Iml : InternalModuleList := ⟨[c1Core, c3Sub], c1Core, [c3Sub]⟩

/-- A submodule replacing the path "example.com/core" with a wrong target. -/
def c4Sub : InternalModule :=
  ⟨"example.com/s", "x/y/go.mod",
    ⟨"example.com/s", some "1.21", [], [⟨⟨"example.com/core", ""⟩, ⟨"bad", ""⟩⟩]⟩⟩

/-- Input where the mismatched path is the core module's own path. -/
def c4ImlA : InternalModuleList := ⟨[c1Core, c4Sub], c1Core, [c4Sub]⟩

/-- A core module of a different name pinning "example.com/core" as a
third-party dependency. -/
def c4CoreB : InternalModule :=
  ⟨"other.example/core", "go.mod",
    ⟨"other.example/core", some "1.21", [], [⟨⟨"example.com/core", ""⟩, ⟨"../../", ""⟩⟩]⟩⟩

/-- Input where the same mismatched path is a third-party dependency. -/
def c4ImlB : InternalModuleList := ⟨[c4CoreB, c4Sub], c4CoreB, [c4Sub]⟩

/-- A core module with one local filesystem replace (a core-purity problem). -/
def c5Core : InternalModule :=
  ⟨"example.com/core", "go.mod",
    ⟨"example.com/core", some "1.21", [], [⟨⟨"third.example/dep", ""⟩, ⟨"local/path", ""⟩⟩]⟩⟩

/-- A submodule with a wrong core override target (an override-mismatch
problem) and an otherwise clean manifest. -/
def c5SubA : InternalModule :=
  ⟨"example.com/a", "cmd/a/go.mod",
    ⟨"example.com/a", some "1.21", [⟨"example.com/core", dummyCoreImportVersion⟩],
      [⟨⟨"example.com/core", ""⟩, ⟨"../", ""⟩⟩]⟩⟩

/-- A submodule with a real version on an internal requirement (a
dummy-version problem) and a differing Go version (a toolchain problem). -/
def c5SubB : InternalModule :=
  ⟨"example.com/b", "cmd/b/go.mod",
    ⟨"example.com/b", some "1.20", [⟨"example.com/a", "v1.0.0"⟩],
      [⟨⟨"example.com/a", ""⟩, ⟨"../../cmd/a/", ""⟩⟩]⟩⟩

/-- Internal module set seeding exactly one problem per checker category. -/
def c5Iml : InternalModuleList := ⟨[c5Core, c5SubA, c5SubB], c5Core, [c5SubA, c5SubB]⟩

/-- A core module whose go.mod has no go directive (nil modfile.Go). -/
def c10Core : InternalModule :=
  ⟨"example.com/core", "go.mod", ⟨"example.com/core", none, [], []⟩⟩

/-- Internal module set whose core module lacks the go directive. -/
def c10Iml : InternalModuleList := ⟨[c10Core], c10Core, []⟩

/-- A module located away from the repository root. -/
def c8Sub : InternalModule :=
  ⟨"example.com/s", "x/y/go.mod", ⟨"example.com/s", some "1.21", [], []⟩⟩

/-!
### Map lemmas
-/

/-- Lookup on the empty map finds nothing. -/
theorem mapLookup_nil (k : String) : mapLookup [] k = none := rfl

/-- One step of association-list lookup. -/
theorem mapLookup_cons (e : String × ModVersion) (rest : List (String × ModVersion))
    (k : String) :
    mapLookup (e :: rest) k = if e.1 = k then some e.2 else mapLookup rest k := by
  by_cases h : e.1 = k <;> simp [mapLookup, List.find?, h]

/-- Looking up after a Go map assignment returns the assigned value at the
assigned key and is unchanged elsewhere. -/
theorem mapLookup_mapInsert (m : List (String × ModVersion)) (k k' : String) (v : ModVersion) :
    mapLookup (mapInsert m k v) k' = if k' = k then some v else mapLookup m k' := by
  induction m with
  | nil =>
    by_cases h : k' = k
    · subst h; simp [mapInsert, mapLookup_cons]
    · have h2 : ¬ k = k' := fun hc => h hc.symm
      simp [mapInsert, mapLookup_cons, mapLookup_nil, h, h2]
  | cons e rest ih =>
    by_cases he : e.1 = k
    · by_cases h : k' = k
      · subst h; simp [mapInsert, he, mapLookup_cons]
      · have h2 : ¬ k = k' := fun hc => h hc.symm
        have hek' : ¬ e.1 = k' := by rw [he]; exact h2
        simp [mapInsert, he, mapLookup_cons, h, h2, hek']
    · by_cases hek' : e.1 = k'
      · have h : ¬ k' = k := by
          intro hc
          exact he (by rw [hek', hc])
        simp [mapInsert, he, mapLookup_cons, h, hek']
      · by_cases h : k' = k
        · subst h; simp [mapInsert, he, mapLookup_cons, hek', ih]
        · simp [mapInsert, he, mapLookup_cons, h, hek', ih]

/-- Every key present after a Go map assignment was present before or is the
assigned key. -/
theorem mem_keys_mapInsert (m : List (String × ModVersion)) (k a : String) (v : ModVersion)
    (h : a ∈ (mapInsert m k v).map (·.1)) : a ∈ m.map (·.1) ∨ a = k := by
  induction m with
  | nil => simpa [mapInsert] using h
  | cons e rest ih =>
    by_cases he : e.1 = k
    · simp only [mapInsert, he, if_pos] at h
      rcases (by simpa using h) with h1 | h2
      · right; exact h1
      · left; simp [h2]
    · simp only [mapInsert, he, if_neg, not_false_iff, List.map_cons, List.mem_cons] at h
      rcases h with h1 | h2
      · left; simp [h1]
      · rcases ih h2 with h3 | h3
        · left; simp [h3]
        · right; exact h3

/-- Go map assignment keeps the keys distinct. -/
theorem nodupKeys_mapInsert (m : List (String × ModVersion)) (k : String) (v : ModVersion)
    (h : (m.map (·.1)).Nodup) : ((mapInsert m k v).map (·.1)).Nodup := by
  induction m with
  | nil => simp [mapInsert]
  | cons e rest ih =>
    rw [List.map_cons, List.nodup_cons] at h
    by_cases he : e.1 = k
    · simp only [mapInsert, he, if_pos, List.map_cons, List.nodup_cons]
      exact ⟨by rw [← he]; exact h.1, h.2⟩
    · simp only [mapInsert, he, if_neg, not_false_iff, List.map_cons, List.nodup_cons]
      refine ⟨fun hmem => ?_, ih h.2⟩
      rcases mem_keys_mapInsert rest k e.1 v hmem with h1 | h1
      · exact h.1 h1
      · exact he h1

/-- Lookup through a fold of Go map assignments: the last assignment to the
key wins, falling back to the initial map when no element assigns it. -/
theorem mapLookup_foldl_mapInsert {α : Type} (key : α → String) (val : α → ModVersion)
    (l : List α) (m : List (String × ModVersion)) (p : String) :
    mapLookup (l.foldl (fun acc x => mapInsert acc (key x) (val x)) m) p =
      match l.reverse.find? (fun x => key x = p) with
      | some x => some (val x)
      | none => mapLookup m p := by
  induction l generalizing m with
  | nil => simp
  | cons x rest ih =>
    simp only [List.foldl_cons, List.reverse_cons]
    rw [ih]
    cases hfind : rest.reverse.find? (fun y => decide (key y = p)) with
    | some y => simp [List.find?_append, hfind]
    | none =>
      by_cases hx : key x = p
      · simp [List.find?_append, hfind, mapLookup_mapInsert, hx]
      · simp [List.find?_append, hfind, mapLookup_mapInsert, hx, Ne.symm hx]

/-- A fold of Go map assignments keeps the keys distinct. -/
theorem nodupKeys_foldl_mapInsert {α : Type} (key : α → String) (val : α → ModVersion)
    (l : List α) (m : List (String × ModVersion)) (h : (m.map (·.1)).Nodup) :
    ((l.foldl (fun acc x => mapInsert acc (key x) (val x)) m).map (·.1)).Nodup := by
  induction l generalizing m with
  | nil => exact h
  | cons x rest ih => exact ih _ (nodupKeys_mapInsert m (key x) (val x) h)

/-!
### Fold-accumulation lemmas
-/

/-- A foldl that only ever appends to its accumulator is the initial value
followed by a flatMap. -/
theorem foldl_eq_append_flatMap {α β : Type} (f : List α → β → List α) (g : β → List α)
    (hf : ∀ acc x, f acc x = acc ++ g x) (l : List β) (init : List α) :
    l.foldl f init = init ++ l.flatMap g := by
  induction l generalizing init with
  | nil => simp
  | cons x rest ih => simp [hf, ih, List.flatMap_cons]

/-- Pair version: a foldl that appends to both components. -/
theorem foldl_pair_eq_append_flatMap {α β γ : Type}
    (f : List α × List β → γ → List α × List β) (g₁ : γ → List α) (g₂ : γ → List β)
    (hf : ∀ acc x, f acc x = (acc.1 ++ g₁ x, acc.2 ++ g₂ x)) (l : List γ)
    (init : List α × List β) :
    l.foldl f init = (init.1 ++ l.flatMap g₁, init.2 ++ l.flatMap g₂) := by
  induction l generalizing init with
  | nil => simp
  | cons x rest ih => simp [hf, ih, List.flatMap_cons]

/-!
### Override map characterization
-/

/-- Lookup through the submodule fold of buildReplaceMap: the last
submodule assigning the key wins, falling back to the initial map. -/
theorem mapLookup_foldl_subs (l : List InternalModule) (m : List (String × ModVersion))
    (p : String) :
    mapLookup (l.foldl
        (fun acc s => mapInsert acc s.Module.modulePath ⟨localReplacePath s.LocalRepoPath, ""⟩)
        m) p =
      match l.reverse.find? (fun s => s.Module.modulePath = p) with
      | some s => some ⟨localReplacePath s.LocalRepoPath, ""⟩
      | none => mapLookup m p := by
  induction l generalizing m with
  | nil => simp
  | cons x rest ih =>
    simp only [List.foldl_cons, List.reverse_cons]
    rw [ih]
    cases hfind : rest.reverse.find? (fun s => decide (s.Module.modulePath = p)) with
    | some y => simp [List.find?_append, hfind]
    | none =>
      by_cases hx : x.Module.modulePath = p
      · simp [List.find?_append, hfind, mapLookup_mapInsert, hx]
      · have hx2 : ¬ p = x.Module.modulePath := fun h => hx h.symm
        simp [List.find?_append, hfind, mapLookup_mapInsert, hx, hx2]

/-- Lookup through the core-replace fold of buildReplaceMap: the last core
replace directive for the key wins, falling back to the initial map. -/
theorem mapLookup_foldl_replaces (l : List ReplaceStmt) (m : List (String × ModVersion))
    (p : String) :
    mapLookup (l.foldl (fun acc r => mapInsert acc r.old.path r.new) m) p =
      match l.reverse.find? (fun r => r.old.path = p) with
      | some r => some r.new
      | none => mapLookup m p := by
  induction l generalizing m with
  | nil => simp
  | cons x rest ih =>
    simp only [List.foldl_cons, List.reverse_cons]
    rw [ih]
    cases hfind : rest.reverse.find? (fun r => decide (r.old.path = p)) with
    | some y => simp [List.find?_append, hfind]
    | none =>
      by_cases hx : x.old.path = p
      · simp [List.find?_append, hfind, mapLookup_mapInsert, hx]
      · have hx2 : ¬ p = x.old.path := fun h => hx h.symm
        simp [List.find?_append, hfind, mapLookup_mapInsert, hx, hx2]

/-- Full lookup characterization of the replaceMap: the core module path
wins (inserted last), then the last submodule with the looked-up module
path, then the last core replace directive for the path. -/
theorem buildReplaceMap_lookup_eq (iml : InternalModuleList) (p : String) :
    mapLookup (buildReplaceMap iml) p =
      (if p = iml.coreModule.Module.modulePath then some ⟨hardLocalReplace, ""⟩
       else
         match iml.submodules.reverse.find? (fun s => s.Module.modulePath = p) with
         | some s => some ⟨localReplacePath s.LocalRepoPath, ""⟩
         | none =>
           match iml.coreModule.Module.replace.reverse.find? (fun r => r.old.path = p) with
           | some r => some r.new
           | none => none) := by
  unfold buildReplaceMap
  rw [mapLookup_mapInsert]
  by_cases h : p = iml.coreModule.Module.modulePath
  · simp [h]
  · simp only [h, if_false]
    rw [mapLookup_foldl_subs]
    cases hfind : iml.submodules.reverse.find? (fun s => decide (s.Module.modulePath = p)) with
    | some s => simp [hfind]
    | none =>
      simp only [hfind]
      rw [mapLookup_foldl_replaces]
      cases hfind2 :
          iml.coreModule.Module.replace.reverse.find? (fun r => decide (r.old.path = p)) with
      | some r => simp [hfind2]
      | none => simp [hfind2, mapLookup_nil]

/-- The replaceMap never holds two entries for the same dependency path. -/
theorem nodupKeys_buildReplaceMap (iml : InternalModuleList) :
    ((buildReplaceMap iml).map (·.1)).Nodup := by
  unfold buildReplaceMap
  exact nodupKeys_mapInsert _ _ _
    (nodupKeys_foldl_mapInsert _ _ _ _ (nodupKeys_foldl_mapInsert _ _ _ _ (by simp)))

/-!
### Claim C1
-/

/-- C1, counterexample: the claim states that a submodule's entry in the
Canonical Override Map is computed as the path difference between the
consuming module's location and the submodule's location.  In c1Iml the only
consuming module of "example.com/b" is c1SubA, located one directory level
deep, so that path difference is "../b/c/"; the map built by the code stores
the hardcoded-prefix target "../../b/c/" instead. -/
theorem buildReplaceMap_pathDifference_counterexample :
    mapLookup (buildReplaceMap c1Iml) "example.com/b" = some ⟨"../../b/c/", ""⟩ ∧
    c1Iml.modules.filter
      (fun x => x.Module.require.any (fun r => r.path = "example.com/b")) = [c1SubA] ∧
    claimedPathDifference c1SubA.LocalRepoPath c1SubB.LocalRepoPath = "../b/c/" ∧
    ("../../b/c/" : String) ≠ "../b/c/" :=
  ⟨by decide, by decide, by decide, by decide⟩

/-- C1, amended: the Canonical Override Map has at most one entry per
dependency path (distinct keys), and lookups resolve exactly as: the core
module's importPath maps to the hardcoded repository-root path "../../"
with empty version; otherwise a path equal to some submodule's importPath
maps to a local-filesystem target (empty version) computed by joining the
hardcoded two-level parent prefix "../../" with that (last such) submodule's
repository-root-relative directory, independent of the consuming module;
otherwise a path the core module declares an override for maps to the
core's (last) declared target; no other path is mapped.  Construction is a
pure function of the Internal Module Set, hence deterministic, and the
distinct keys mean no conflicting entries. -/
theorem buildReplaceMap_entries (iml : InternalModuleList) (p : String) :
    mapLookup (buildReplaceMap iml) p =
      (if p = iml.coreModule.Module.modulePath then some ⟨hardLocalReplace, ""⟩
       else
         match iml.submodules.reverse.find? (fun s => s.Module.modulePath = p) with
         | some s => some ⟨localReplacePath s.LocalRepoPath, ""⟩
         | none =>
           match iml.coreModule.Module.replace.reverse.find? (fun r => r.old.path = p) with
           | some r => some r.new
           | none => none) ∧
    ((buildReplaceMap iml).map (·.1)).Nodup :=
  ⟨buildReplaceMap_lookup_eq iml p, nodupKeys_buildReplaceMap iml⟩

/-!
### Checker conversion lemmas: foldl accumulations as flatMaps
-/

/-- The scanReplaces fold, generalized over its accumulator. -/
theorem scanReplaces_aux (rm : List (String × ModVersion)) (m : InternalModule)
    (l : List ReplaceStmt) (init : List String × List Violation) :
    (l.foldl
      (fun acc r =>
        match mapLookup rm r.old.path with
        | none => acc
        | some expected =>
          if r.new.path = expected.path ∧ r.new.version = expected.version then
            (acc.1 ++ [r.old.path], acc.2)
          else
            (acc.1 ++ [r.old.path],
              acc.2 ++ [.overrideMismatch m.Name r.old.path r.new expected]))
      init) =
      (init.1 ++ foundList rm l, init.2 ++ mismatchList rm m.Name l) := by
  induction l generalizing init with
  | nil => simp [foundList, mismatchList]
  | cons x rest ih =>
    simp only [List.foldl_cons]
    cases hl : mapLookup rm x.old.path with
    | none => rw [ih]; simp [foundList, mismatchList, List.flatMap_cons, hl]
    | some expected =>
      by_cases hc : x.new.path = expected.path ∧ x.new.version = expected.version
      · rw [ih]; simp [foundList, mismatchList, List.flatMap_cons, hl, hc]
      · rw [ih]; simp [foundList, mismatchList, List.flatMap_cons, hl, hc]

/-- scanReplaces computes the foundReplaces list and the mismatch
violations of its module. -/
theorem scanReplaces_eq (rm : List (String × ModVersion)) (m : InternalModule) :
    scanReplaces rm m = (foundList rm m.Module.replace, mismatchList rm m.Name m.Module.replace) := by
  unfold scanReplaces
  rw [scanReplaces_aux]
  simp

/-- The requireErrors fold, generalized over its accumulator. -/
theorem requireErrors_aux (rm : List (String × ModVersion)) (found : List String)
    (m : InternalModule) (l : List ModVersion) (init : List Violation) :
    (l.foldl
      (fun acc req =>
        match mapLookup rm req.path with
        | none => acc
        | some coreReplace =>
          if found.contains req.path then acc
          else acc ++ [.missingOverride m.Name req.path coreReplace])
      init) =
      init ++ missingList rm found m.Name l := by
  induction l generalizing init with
  | nil => simp [missingList]
  | cons x rest ih =>
    simp only [List.foldl_cons]
    cases hl : mapLookup rm x.path with
    | none => rw [ih]; simp [missingList, List.flatMap_cons, hl]
    | some cr =>
      by_cases hf : x.path ∈ found
      · rw [ih]; simp [missingList, List.flatMap_cons, hl, hf]
      · rw [ih]; simp [missingList, List.flatMap_cons, hl, hf]

/-- requireErrors computes exactly the missingList of its module. -/
theorem requireErrors_eq (rm : List (String × ModVersion)) (found : List String)
    (m : InternalModule) :
    requireErrors rm found m = missingList rm found m.Name m.Module.require := by
  unfold requireErrors
  rw [requireErrors_aux]
  simp

/-- The requireErrorsExempt fold, generalized over its accumulator. -/
theorem requireErrorsExempt_aux (rm : List (String × ModVersion)) (corePath : String)
    (dIE : List String) (found : List String) (m : InternalModule)
    (l : List ModVersion) (init : List Violation) :
    (l.foldl
      (fun acc req =>
        match mapLookup rm req.path with
        | none => acc
        | some coreReplace =>
          if found.contains req.path then acc
          else if req.path = corePath ∧ dIE.contains m.Name then acc
          else acc ++ [.missingOverride m.Name req.path coreReplace])
      init) =
      init ++ missingListExempt rm corePath dIE found m.Name l := by
  induction l generalizing init with
  | nil => simp [missingListExempt]
  | cons x rest ih =>
    simp only [List.foldl_cons]
    cases hl : mapLookup rm x.path with
    | none => rw [ih]; simp [missingListExempt, List.flatMap_cons, hl]
    | some cr =>
      by_cases hf : x.path ∈ found
      · rw [ih]; simp [missingListExempt, List.flatMap_cons, hl, hf]
      · by_cases hex : x.path = corePath ∧ m.Name ∈ dIE
        · rw [hex.1] at hl
          rw [ih]; simp [missingListExempt, List.flatMap_cons, hl, hf, hex, hex.1, hex.2]
        · rw [ih]; simp [missingListExempt, List.flatMap_cons, hl, hf, hex]

/-- requireErrorsExempt computes exactly the missingListExempt of its
module. -/
theorem requireErrorsExempt_eq (rm : List (String × ModVersion)) (corePath : String)
    (dIE : List String) (found : List String) (m : InternalModule) :
    requireErrorsExempt rm corePath dIE found m =
      missingListExempt rm corePath dIE found m.Name m.Module.require := by
  unfold requireErrorsExempt
  rw [requireErrorsExempt_aux]
  simp

/-- checkReplacesModule in flatMap form. -/
theorem checkReplacesModule_eq (rm : List (String × ModVersion)) (m : InternalModule) :
    checkReplacesModule rm m =
      mismatchList rm m.Name m.Module.replace ++
        missingList rm (foundList rm m.Module.replace) m.Name m.Module.require := by
  simp only [checkReplacesModule, scanReplaces_eq, requireErrors_eq]

/-- checkReplacesModuleExempt in flatMap form. -/
theorem checkReplacesModuleExempt_eq (rm : List (String × ModVersion)) (corePath : String)
    (dIE : List String) (m : InternalModule) :
    checkReplacesModuleExempt rm corePath dIE m =
      mismatchList rm m.Name m.Module.replace ++
        missingListExempt rm corePath dIE (foundList rm m.Module.replace) m.Name
          m.Module.require := by
  simp only [checkReplacesModuleExempt, scanReplaces_eq, requireErrorsExempt_eq]

/-- checkReplaces concatenates the per-module findings over all modules. -/
theorem checkReplaces_eq (iml : InternalModuleList) :
    checkReplaces iml =
      iml.modules.flatMap (fun m => checkReplacesModule (buildReplaceMap iml) m) := by
  unfold checkReplaces
  exact (foldl_eq_append_flatMap _ (fun m => checkReplacesModule (buildReplaceMap iml) m)
    (fun acc x => rfl) iml.modules []).trans (by simp)

/-- checkReplacesExempt concatenates the per-module findings over all
modules. -/
theorem checkReplacesExempt_eq (iml : InternalModuleList) (dIE : List String) :
    checkReplacesExempt iml dIE =
      iml.modules.flatMap
        (fun m => checkReplacesModuleExempt (buildReplaceMap iml)
          iml.coreModule.Module.modulePath dIE m) := by
  unfold checkReplacesExempt
  exact (foldl_eq_append_flatMap _
    (fun m => checkReplacesModuleExempt (buildReplaceMap iml)
      iml.coreModule.Module.modulePath dIE m)
    (fun acc x => rfl) iml.modules []).trans (by simp)

/-- The inner requirement fold of the dummy-version check, generalized over
its accumulator. -/
theorem dummyFold_aux (iml : InternalModuleList) (m : InternalModule)
    (l : List ModVersion) (init : List Violation) :
    (l.foldl
      (fun acc2 req =>
        if isInternalModuleName iml req.path then
          if req.version = dummyCoreImportVersion then acc2
          else acc2 ++ [.nonDummyInternalVersion m.Name req.path req.version
            dummyCoreImportVersion]
        else acc2)
      init) =
      init ++ dummyList iml m.Name l := by
  induction l generalizing init with
  | nil => simp [dummyList]
  | cons x rest ih =>
    simp only [List.foldl_cons]
    by_cases hi : isInternalModuleName iml x.path = true
    · by_cases hv : x.version = dummyCoreImportVersion
      · rw [ih]; simp [dummyList, List.flatMap_cons, hi, hv]
      · rw [ih]; simp [dummyList, List.flatMap_cons, hi, hv]
    · rw [ih]; simp [dummyList, List.flatMap_cons, hi]

/-- checkInternalModuleRequirements concatenates the per-module dummy-version
findings over all modules. -/
theorem checkInternalModuleRequirements_eq (iml : InternalModuleList) :
    checkInternalModuleRequirements iml =
      iml.modules.flatMap (fun m => dummyList iml m.Name m.Module.require) := by
  unfold checkInternalModuleRequirements
  exact (foldl_eq_append_flatMap _ (fun m => dummyList iml m.Name m.Module.require)
    (fun acc x => dummyFold_aux iml x x.Module.require acc) iml.modules []).trans (by simp)

/-- checkInternalModuleRequirementsExempt concatenates the per-module
findings, skipping exempt modules. -/
theorem checkInternalModuleRequirementsExempt_eq (iml : InternalModuleList)
    (nDE : List String) :
    checkInternalModuleRequirementsExempt iml nDE =
      iml.modules.flatMap
        (fun m => if nDE.contains m.Name then [] else dummyList iml m.Name m.Module.require) := by
  unfold checkInternalModuleRequirementsExempt
  refine (foldl_eq_append_flatMap _
    (fun m => if nDE.contains m.Name then [] else dummyList iml m.Name m.Module.require)
    (fun acc x => ?_) iml.modules []).trans (by simp)
  by_cases hc : x.Name ∈ nDE
  · simp [hc]
  · simp [hc, dummyFold_aux iml x x.Module.require acc]

/-- When every submodule carries a go directive, the toolchain fold returns
one violation per mismatching submodule, in order. -/
theorem checkGoVersionsAux_some (coreGoVersion : String) (subs : List InternalModule)
    (acc : List Violation) (h : ∀ s ∈ subs, (s.Module.goVersion).isSome = true) :
    checkGoVersionsAux coreGoVersion subs acc =
      some (acc ++ subs.flatMap (goVersionViolationList coreGoVersion)) := by
  induction subs generalizing acc with
  | nil => simp [checkGoVersionsAux]
  | cons x rest ih =>
    have hx := h x (by simp)
    cases hgo : x.Module.goVersion with
    | none => rw [hgo] at hx; simp at hx
    | some v =>
      have hrest : ∀ s ∈ rest, (s.Module.goVersion).isSome = true :=
        fun s hs => h s (by simp [hs])
      by_cases hv : v = coreGoVersion
      · simp [checkGoVersionsAux, hgo, hv, ih _ hrest, goVersionViolationList,
          List.flatMap_cons]
      · simp [checkGoVersionsAux, hgo, hv, ih _ hrest, goVersionViolationList,
          List.flatMap_cons]

/-- The toolchain fold dies exactly when some submodule lacks the go
directive. -/
theorem checkGoVersionsAux_none_iff (coreGoVersion : String) (subs : List InternalModule)
    (acc : List Violation) :
    checkGoVersionsAux coreGoVersion subs acc = none ↔
      ∃ s ∈ subs, s.Module.goVersion = none := by
  induction subs generalizing acc with
  | nil => simp [checkGoVersionsAux]
  | cons x rest ih =>
    cases hgo : x.Module.goVersion with
    | none => simp [checkGoVersionsAux, hgo]
    | some v =>
      by_cases hv : v = coreGoVersion <;> simp [checkGoVersionsAux, hgo, hv, ih]

/-- checkGoVersions dies exactly when the core module or some submodule
lacks the go directive. -/
theorem checkGoVersions_none_iff (iml : InternalModuleList) :
    checkGoVersions iml = none ↔
      iml.coreModule.Module.goVersion = none ∨
        ∃ s ∈ iml.submodules, s.Module.goVersion = none := by
  unfold checkGoVersions
  cases hgo : iml.coreModule.Module.goVersion with
  | none => simp [hgo]
  | some coreV => simp [hgo, checkGoVersionsAux_none_iff]

/-!
### Counting lemmas
-/

/-- Count over a flatMap is the sum of the per-element counts. -/
theorem count_flatMap {α : Type} (l : List α) (F : α → List Violation) (a : Violation) :
    ((l.flatMap F).count a) = (l.map (fun x => (F x).count a)).sum := by
  induction l with
  | nil => simp
  | cons x rest ih => simp [List.flatMap_cons, List.count_append, ih]

/-- A sum of mapped values that all vanish is zero. -/
theorem sum_map_zero {α : Type} (l : List α) (f : α → Nat) (h : ∀ x ∈ l, f x = 0) :
    (l.map f).sum = 0 := by
  induction l with
  | nil => simp
  | cons x rest ih => simp [h x (by simp), ih (fun y hy => h y (by simp [hy]))]

/-- When exactly one module matches a name filter and the summand vanishes
for every other name, the sum collapses to that module's summand. -/
theorem sum_map_single (n : String) (m : InternalModule) (ms : List InternalModule)
    (f : InternalModule → Nat) (hmem : ms.filter (fun x => x.Name = n) = [m])
    (hzero : ∀ x, ¬ x.Name = n → f x = 0) :
    (ms.map f).sum = f m := by
  induction ms with
  | nil => simp at hmem
  | cons x rest ih =>
    by_cases hx : x.Name = n
    · rw [List.filter_cons_of_pos (by simp [hx])] at hmem
      have hxm : x = m := (List.cons_eq_cons.mp hmem).1
      have hrest : rest.filter (fun y => y.Name = n) = [] := (List.cons_eq_cons.mp hmem).2
      have hzrest : ∀ y ∈ rest, f y = 0 := by
        intro y hy
        by_cases hyn : y.Name = n
        · exfalso
          have : y ∈ rest.filter (fun z => z.Name = n) := by
            rw [List.mem_filter]; exact ⟨hy, by simp [hyn]⟩
          rw [hrest] at this
          simp at this
        · exact hzero y hyn
      simp [hxm, sum_map_zero rest f hzrest]
    · rw [List.filter_cons_of_neg (by simp [hx])] at hmem
      simp [hzero x hx, ih hmem]

/-- Count of a single value over a flatMap whose pieces are the singleton
of that value exactly on a key predicate: it is the number of keyed
elements. -/
theorem count_flatMap_singleton {α : Type} (l : List α) (g : α → List Violation)
    (a : Violation) (key : α → Prop) [DecidablePred key]
    (h1 : ∀ x ∈ l, key x → g x = [a])
    (h2 : ∀ x ∈ l, ¬ key x → a ∉ g x) :
    (l.flatMap g).count a = (l.filter (fun x => key x)).length := by
  induction l with
  | nil => simp
  | cons x rest ih =>
    have ih2 := ih (fun y hy => h1 y (List.mem_cons_of_mem x hy))
      (fun y hy => h2 y (List.mem_cons_of_mem x hy))
    by_cases hx : key x
    · rw [List.flatMap_cons, List.count_append, h1 x (by simp) hx, ih2,
        List.filter_cons_of_pos (by simp [hx])]
      simp [Nat.add_comm]
    · rw [List.flatMap_cons, List.count_append, ih2,
        List.count_eq_zero.mpr (h2 x (by simp) hx),
        List.filter_cons_of_neg (by simp [hx])]
      simp

/-!
### Membership characterizations of the per-module violation lists
-/

/-- Every element of the foundReplaces list is the old path of some replace
directive. -/
theorem mem_foundList {rm : List (String × ModVersion)} {l : List ReplaceStmt} {q : String}
    (h : q ∈ foundList rm l) : ∃ r ∈ l, r.old.path = q := by
  simp only [foundList, List.mem_flatMap] at h
  obtain ⟨r, hr, hq⟩ := h
  by_cases hs : (mapLookup rm r.old.path).isSome = true
  · simp [hs] at hq
    exact ⟨r, hr, hq.symm⟩
  · simp [hs] at hq

/-- Every mismatch violation of a module names that module and records the
mismatching replace directive and its expected target. -/
theorem mem_mismatchList {rm : List (String × ModVersion)} {name : String}
    {l : List ReplaceStmt} {v : Violation} (h : v ∈ mismatchList rm name l) :
    ∃ r ∈ l, ∃ e, mapLookup rm r.old.path = some e ∧
      ¬(r.new.path = e.path ∧ r.new.version = e.version) ∧
      v = .overrideMismatch name r.old.path r.new e := by
  simp only [mismatchList, List.mem_flatMap] at h
  obtain ⟨r, hr, hv⟩ := h
  cases hl : mapLookup rm r.old.path with
  | none => rw [hl] at hv; simp at hv
  | some e =>
    rw [hl] at hv
    by_cases hc : r.new.path = e.path ∧ r.new.version = e.version
    · simp [hc] at hv
    · simp only [hc, if_neg, not_false_iff, List.mem_singleton] at hv
      exact ⟨r, hr, e, hl, hc, hv⟩

/-- Every missing-override violation of a module names that module, a
required path with a map entry that was not among the found replaces, and
the expected target. -/
theorem mem_missingList {rm : List (String × ModVersion)} {found : List String}
    {name : String} {l : List ModVersion} {v : Violation}
    (h : v ∈ missingList rm found name l) :
    ∃ req ∈ l, ∃ cr, mapLookup rm req.path = some cr ∧ req.path ∉ found ∧
      v = .missingOverride name req.path cr := by
  simp only [missingList, List.mem_flatMap] at h
  obtain ⟨req, hreq, hv⟩ := h
  cases hl : mapLookup rm req.path with
  | none => rw [hl] at hv; simp at hv
  | some cr =>
    rw [hl] at hv
    by_cases hf : req.path ∈ found
    · simp [hf] at hv
    · simp [hf] at hv
      exact ⟨req, hreq, cr, hl, hf, hv⟩

/-- Every missing-override violation of the exemption-aware check names its
module, a required covered path not found among the replaces, and was not
exempted. -/
theorem mem_missingListExempt {rm : List (String × ModVersion)} {corePath : String}
    {dIE found : List String} {name : String} {l : List ModVersion} {v : Violation}
    (h : v ∈ missingListExempt rm corePath dIE found name l) :
    ∃ req ∈ l, ∃ cr, mapLookup rm req.path = some cr ∧ req.path ∉ found ∧
      ¬(req.path = corePath ∧ name ∈ dIE) ∧ v = .missingOverride name req.path cr := by
  simp only [missingListExempt, List.mem_flatMap] at h
  obtain ⟨req, hreq, hv⟩ := h
  cases hl : mapLookup rm req.path with
  | none => rw [hl] at hv; simp at hv
  | some cr =>
    rw [hl] at hv
    by_cases hf : req.path ∈ found
    · simp [hf] at hv
    · by_cases hex : req.path = corePath ∧ name ∈ dIE
      · simp [hf, hex] at hv
      · simp [hf, hex] at hv
        exact ⟨req, hreq, cr, hl, hf, hex, hv⟩

/-- Every dummy-version violation of a module names that module and records
an internal requirement carrying a non-placeholder version. -/
theorem mem_dummyList {iml : InternalModuleList} {name : String} {l : List ModVersion}
    {v : Violation} (h : v ∈ dummyList iml name l) :
    ∃ req ∈ l, isInternalModuleName iml req.path = true ∧
      ¬ req.version = dummyCoreImportVersion ∧
      v = .nonDummyInternalVersion name req.path req.version dummyCoreImportVersion := by
  simp only [dummyList, List.mem_flatMap] at h
  obtain ⟨req, hreq, hv⟩ := h
  by_cases hi : isInternalModuleName iml req.path = true
  · by_cases hd : req.version = dummyCoreImportVersion
    · simp [hi, hd] at hv
    · simp only [hi, if_pos, hd, if_neg, not_false_iff, List.mem_singleton] at hv
      exact ⟨req, hreq, hi, hd, hv⟩
  · simp [hi] at hv

/-!
### Claims C6, C7, C8, C9, C10
-/

/-- The local-replace accumulation of checkCoreModuleReplacements,
generalized over its accumulator. -/
theorem coreLocalFold_aux (l : List ReplaceStmt) (init : List String) :
    (l.foldl (fun acc r => if r.new.version = "" then acc ++ [r.old.path] else acc) init) =
      init ++ (l.filter (fun r => r.new.version = "")).map (fun r => r.old.path) := by
  induction l generalizing init with
  | nil => simp
  | cons x rest ih =>
    simp only [List.foldl_cons]
    by_cases hx : x.new.version = ""
    · rw [ih]; simp [hx]
    · rw [ih]; simp [hx]

/-- checkCoreModuleReplacements in filter/map form. -/
theorem checkCoreModuleReplacements_eq (iml : InternalModuleList) :
    checkCoreModuleReplacements iml =
      (if 0 <
          ((iml.coreModule.Module.replace.filter (fun r => r.new.version = "")).map
            (fun r => r.old.path)).length then
        some (.coreHasLocalOverride
          ((iml.coreModule.Module.replace.filter (fun r => r.new.version = "")).map
            (fun r => r.old.path)))
      else none) := by
  simp only [checkCoreModuleReplacements]
  rw [coreLocalFold_aux]
  simp

/-- C6, confirmed: the core-purity check returns a violation exactly when
the core module declares at least one override with an empty target version
(a local filesystem override); the single violation aggregates the original
paths of all such overrides, in order, so one local override on a path X
yields exactly one CoreHasLocalOverride violation mentioning X and zero
local overrides yield none. -/
theorem checkCoreModuleReplacements_spec (iml : InternalModuleList) :
    ((checkCoreModuleReplacements iml).isSome = true ↔
      ∃ r ∈ iml.coreModule.Module.replace, r.new.version = "") ∧
    (∀ v, checkCoreModuleReplacements iml = some v →
      v = .coreHasLocalOverride
        ((iml.coreModule.Module.replace.filter (fun r => r.new.version = "")).map
          (fun r => r.old.path))) ∧
    (∀ ps, checkCoreModuleReplacements iml = some (.coreHasLocalOverride ps) →
      ∀ r ∈ iml.coreModule.Module.replace, r.new.version = "" → r.old.path ∈ ps) := by
  have hex : (0 <
      ((iml.coreModule.Module.replace.filter (fun r => r.new.version = "")).map
        (fun r => r.old.path)).length) ↔
      ∃ r ∈ iml.coreModule.Module.replace, r.new.version = "" := by
    rw [List.length_map, List.length_pos]
    constructor
    · intro h
      obtain ⟨x, hx⟩ := List.exists_mem_of_ne_nil _ h
      rw [List.mem_filter] at hx
      exact ⟨x, hx.1, by simpa using hx.2⟩
    · rintro ⟨r, hr, hv⟩ hnil
      have : r ∈ iml.coreModule.Module.replace.filter (fun r => r.new.version = "") :=
        List.mem_filter.mpr ⟨hr, by simp [hv]⟩
      rw [hnil] at this
      simp at this
  refine ⟨?_, ?_, ?_⟩
  · rw [checkCoreModuleReplacements_eq]
    by_cases h : 0 <
        ((iml.coreModule.Module.replace.filter (fun r => r.new.version = "")).map
          (fun r => r.old.path)).length
    · simp only [h, if_pos, Option.isSome_some]
      exact iff_of_true trivial (hex.mp h)
    · simp only [h, if_neg, not_false_iff, Option.isSome_none]
      exact iff_of_false (by simp) (fun hc => h (hex.mpr hc))
  · intro v hv
    rw [checkCoreModuleReplacements_eq] at hv
    by_cases h : 0 <
        ((iml.coreModule.Module.replace.filter (fun r => r.new.version = "")).map
          (fun r => r.old.path)).length
    · rw [if_pos h] at hv
      exact (Option.some.inj hv).symm
    · rw [if_neg h] at hv
      exact absurd hv (by simp)
  · intro ps hps r hr hv
    rw [checkCoreModuleReplacements_eq] at hps
    by_cases h : 0 <
        ((iml.coreModule.Module.replace.filter (fun r => r.new.version = "")).map
          (fun r => r.old.path)).length
    · rw [if_pos h] at hps
      have hps2 := Option.some.inj hps
      have : ps = (iml.coreModule.Module.replace.filter (fun r => r.new.version = "")).map
          (fun r => r.old.path) := by
        cases hps2
        rfl
      rw [this, List.mem_map]
      exact ⟨r, List.mem_filter.mpr ⟨hr, by simp [hv]⟩, rfl⟩
    · rw [if_neg h] at hps
      exact absurd hps (by simp)

/-- C6 witness: the c5Iml core module declares one local filesystem replace
on "third.example/dep" and the check reports exactly that aggregate
violation. -/
theorem checkCoreModuleReplacements_spec_witness :
    Violation.coreHasLocalOverride ["third.example/dep"] =
      .coreHasLocalOverride
        ((c5Iml.coreModule.Module.replace.filter (fun r => r.new.version = "")).map
          (fun r => r.old.path)) :=
  (checkCoreModuleReplacements_spec c5Iml).2.1
    (.coreHasLocalOverride ["third.example/dep"]) (by decide)

/-- Per-submodule toolchain lists have one element per mismatching
submodule. -/
theorem goVersionViolation_length (coreGoVersion : String) (subs : List InternalModule)
    (h : ∀ s ∈ subs, (s.Module.goVersion).isSome = true) :
    (subs.flatMap (goVersionViolationList coreGoVersion)).length =
      (subs.filter (fun s => ¬ s.Module.goVersion = some coreGoVersion)).length := by
  induction subs with
  | nil => simp
  | cons x rest ih =>
    have hx := h x (by simp)
    have hrest := fun s hs => h s (List.mem_cons_of_mem x hs)
    cases hgo : x.Module.goVersion with
    | none => rw [hgo] at hx; simp at hx
    | some v =>
      by_cases hv : v = coreGoVersion
      · simp [List.flatMap_cons, goVersionViolationList, hgo, hv, ih hrest]
      · simp [List.flatMap_cons, goVersionViolationList, hgo, hv, ih hrest]

/-- C7, confirmed: when every manifest carries a go directive, the
toolchain check compares each submodule (and only submodules — the core
module is not compared against itself) to the core version: a mismatching
submodule contributes exactly one ToolchainVersionMismatch naming the
module, the observed version and the core version, and a matching
submodule contributes none. -/
theorem checkGoVersions_spec (iml : InternalModuleList) (coreV : String)
    (hcore : iml.coreModule.Module.goVersion = some coreV)
    (hsubs : ∀ s ∈ iml.submodules, (s.Module.goVersion).isSome = true) :
    checkGoVersions iml = some (iml.submodules.flatMap (goVersionViolationList coreV)) ∧
    (iml.submodules.flatMap (goVersionViolationList coreV)).length =
      (iml.submodules.filter (fun s => ¬ s.Module.goVersion = some coreV)).length ∧
    (∀ s ∈ iml.submodules, s.Module.goVersion = some coreV →
      goVersionViolationList coreV s = []) ∧
    (∀ s ∈ iml.submodules, ∀ v, s.Module.goVersion = some v → ¬ v = coreV →
      goVersionViolationList coreV s = [.toolchainVersionMismatch s.Name v coreV]) := by
  refine ⟨?_, goVersionViolation_length coreV iml.submodules hsubs, ?_, ?_⟩
  · unfold checkGoVersions
    rw [hcore]
    exact checkGoVersionsAux_some coreV _ [] hsubs
  · intro s _ hv
    simp [goVersionViolationList, hv]
  · intro s _ v hv hne
    simp [goVersionViolationList, hv, hne]

/-- C7 witness: in c5Iml the submodule "example.com/b" declares Go 1.20
against the core 1.21 and is the only toolchain violation. -/
theorem checkGoVersions_spec_witness :
    checkGoVersions c5Iml = some (c5Iml.submodules.flatMap (goVersionViolationList "1.21")) ∧
    c5Iml.submodules.flatMap (goVersionViolationList "1.21") =
      [Violation.toolchainVersionMismatch "example.com/b" "1.20" "1.21"] :=
  ⟨(checkGoVersions_spec c5Iml "1.21" (by decide) (by decide)).1, by decide⟩

/-- The walk partition finds no core module when no manifest is at the
repository root. -/
theorem partitionWalk_aux (l : List InternalModule)
    (acc : Option InternalModule × List InternalModule)
    (h : ∀ m ∈ l, ¬ m.LocalRepoPath = "go.mod") :
    (l.foldl
      (fun acc m =>
        if m.LocalRepoPath = "go.mod" then (some m, acc.2) else (acc.1, acc.2 ++ [m]))
      acc).1 = acc.1 := by
  induction l generalizing acc with
  | nil => rfl
  | cons x rest ih =>
    have hx := h x (by simp)
    simp only [List.foldl_cons]
    rw [if_neg hx]
    exact ih _ (fun m hm => h m (List.mem_cons_of_mem x hm))

/-- C8, confirmed: when no module declaration sits at the repository root,
validation fails immediately with the single fatal missingCoreModule error:
no rule checker runs and no violation list is produced. -/
theorem runValidateGoMod_missingCore (discovered : List InternalModule)
    (h : ∀ m ∈ discovered, ¬ m.LocalRepoPath = "go.mod") :
    runValidateGoMod discovered = .fatal .missingCoreModule ∧
    ∀ ok errs, ¬ runValidateGoMod discovered = ValidationResult.result ok errs := by
  have hpart : (partitionWalk discovered).1 = none := by
    have := partitionWalk_aux discovered (none, []) h
    simpa [partitionWalk] using this
  have hfind : findInternalModules discovered = .error .missingCoreModule := by
    unfold findInternalModules
    rcases hp : partitionWalk discovered with ⟨fst, snd⟩
    rw [hp] at hpart
    simp only at hpart
    rw [hpart]
  constructor
  · unfold runValidateGoMod
    rw [hfind]
  · intro ok errs hc
    unfold runValidateGoMod at hc
    rw [hfind] at hc
    exact absurd hc (by simp)

/-- C8 witness: a lone module away from the root yields the fatal error. -/
theorem runValidateGoMod_missingCore_witness :
    runValidateGoMod [c8Sub] = .fatal .missingCoreModule :=
  (runValidateGoMod_missingCore [c8Sub] (by decide)).1

/-- C9, confirmed: validate is a pure function of the Internal Module Set
and the two exemption sets; two runs on equal inputs return the same ok
verdict and the same violation list.  In this embedding the pass performs
no I/O and mutates no state by construction. -/
theorem validateExempt_deterministic (iml₁ iml₂ : InternalModuleList)
    (d₁ d₂ n₁ n₂ : List String) (h : iml₁ = iml₂) (hd : d₁ = d₂) (hn : n₁ = n₂) :
    validateExempt iml₁ d₁ n₁ = validateExempt iml₂ d₂ n₂ ∧
    ∀ ok errs, validateExempt iml₁ d₁ n₁ = some (ok, errs) →
      validateExempt iml₂ d₂ n₂ = some (ok, errs) := by
  subst h; subst hd; subst hn
  exact ⟨rfl, fun ok errs hc => hc⟩

/-- C9 witness: two runs on the c2Iml fixture agree. -/
theorem validateExempt_deterministic_witness :
    validateExempt c2Iml [] [] = validateExempt c2Iml [] [] :=
  (validateExempt_deterministic c2Iml c2Iml [] [] [] [] rfl rfl rfl).1

/-- C10, confirmed: the toolchain check dereferences the go directive of
the core module and of every submodule with no presence guard; it is
defined exactly when all of them are present, and an absent directive
makes the whole run die (modelled as none and the panicked outcome), not
report a violation or a fatal configuration error. -/
theorem checkGoVersions_partiality (iml : InternalModuleList) :
    (checkGoVersions iml = none ↔
      iml.coreModule.Module.goVersion = none ∨
        ∃ s ∈ iml.submodules, s.Module.goVersion = none) ∧
    (checkGoVersions iml = none → validate iml = none) ∧
    (∀ discovered, findInternalModules discovered = .ok iml →
      checkGoVersions iml = none → runValidateGoMod discovered = .panicked) := by
  refine ⟨checkGoVersions_none_iff iml, ?_, ?_⟩
  · intro h
    unfold validate
    rw [h]
  · intro discovered hfind h
    have hv : validate iml = none := by unfold validate; rw [h]
    unfold runValidateGoMod
    rw [hfind]
    simp [hv]

/-- C10 witness: with the core module of c10Iml lacking the go directive,
the check and the whole pass die rather than report anything. -/
theorem checkGoVersions_partiality_witness :
    checkGoVersions c10Iml = none ∧ validate c10Iml = none ∧
    runValidateGoMod [c10Core] = .panicked := by
  have h := checkGoVersions_partiality c10Iml
  have h1 : checkGoVersions c10Iml = none := h.1.mpr (Or.inl (by decide))
  exact ⟨h1, h.2.1 h1, h.2.2 [c10Core] (by rfl) h1⟩

/-!
### Per-constructor count lemmas for the override-consistency check
-/

/-- A mismatch list never contains a missing-override violation. -/
theorem count_missingOverride_mismatchList (rm : List (String × ModVersion)) (name : String)
    (l : List ReplaceStmt) (n q : String) (w : ModVersion) :
    (mismatchList rm name l).count (Violation.missingOverride n q w) = 0 := by
  rw [List.count_eq_zero]
  intro hmem
  obtain ⟨r, hr, e, hl, hc, hv⟩ := mem_mismatchList hmem
  exact Violation.noConfusion hv

/-- A missing-override list (exemption-aware) never contains an
override-mismatch violation. -/
theorem count_overrideMismatch_missingListExempt (rm : List (String × ModVersion))
    (cp : String) (dIE found : List String) (name : String) (l : List ModVersion)
    (n q : String) (g w : ModVersion) :
    (missingListExempt rm cp dIE found name l).count (Violation.overrideMismatch n q g w) = 0 := by
  rw [List.count_eq_zero]
  intro hmem
  obtain ⟨req, hreq, cr, hl, hf, hex, hv⟩ := mem_missingListExempt hmem
  exact Violation.noConfusion hv

/-- A missing-override list never contains an override-mismatch violation. -/
theorem count_overrideMismatch_missingList (rm : List (String × ModVersion))
    (found : List String) (name : String) (l : List ModVersion)
    (n q : String) (g w : ModVersion) :
    (missingList rm found name l).count (Violation.overrideMismatch n q g w) = 0 := by
  rw [List.count_eq_zero]
  intro hmem
  obtain ⟨req, hreq, cr, hl, hf, hv⟩ := mem_missingList hmem
  exact Violation.noConfusion hv

/-- Vanishing count over an exemption-aware missing-override list, from the
impossibility of the recorded shape. -/
theorem count_missingListExempt_zero (rm : List (String × ModVersion)) (cp : String)
    (dIE found : List String) (name : String) (l : List ModVersion) (a : Violation)
    (h : ∀ req ∈ l, ∀ cr, mapLookup rm req.path = some cr → req.path ∉ found →
      ¬(req.path = cp ∧ name ∈ dIE) → ¬ a = .missingOverride name req.path cr) :
    (missingListExempt rm cp dIE found name l).count a = 0 := by
  rw [List.count_eq_zero]
  intro hmem
  obtain ⟨req, hreq, cr, hl, hf, hex, hv⟩ := mem_missingListExempt hmem
  exact h req hreq cr hl hf hex hv

/-- The count of one expected missing-override violation over the
exemption-aware missing list is the number of matching requirements. -/
theorem count_missingListExempt_req (rm : List (String × ModVersion)) (cp : String)
    (dIE found : List String) (name : String) (l : List ModVersion) (p : String)
    (w : ModVersion) (hmap : mapLookup rm p = some w) (hfound : p ∉ found)
    (hex : ¬(p = cp ∧ name ∈ dIE)) :
    (missingListExempt rm cp dIE found name l).count (.missingOverride name p w) =
      (l.filter (fun r => r.path = p)).length := by
  unfold missingListExempt
  refine count_flatMap_singleton _ _ _ (fun req : ModVersion => req.path = p) ?_ ?_
  · intro req _ hkey
    rw [hkey, hmap]
    simp [hfound, hex]
  · intro req _ hkey hmem
    cases hl : mapLookup rm req.path with
    | none => rw [hl] at hmem; simp at hmem
    | some cr =>
      rw [hl] at hmem
      by_cases hf : req.path ∈ found
      · simp [hf] at hmem
      · by_cases hx : req.path = cp ∧ name ∈ dIE
        · simp [hf, hx] at hmem
        · simp [hf, hx] at hmem
          exact hkey hmem.1.symm

/-- For a module with a different name, the exemption-aware per-module check
contributes no missing-override violation naming the target module. -/
theorem count_module_missing_zero (rm : List (String × ModVersion)) (cp : String)
    (dIE : List String) (x : InternalModule) (n q : String) (w : ModVersion)
    (hne : ¬ x.Name = n) :
    (checkReplacesModuleExempt rm cp dIE x).count (Violation.missingOverride n q w) = 0 := by
  rw [checkReplacesModuleExempt_eq, List.count_append, count_missingOverride_mismatchList,
    count_missingListExempt_zero]
  · intro req _ cr _ _ _ hv
    injection hv with h1 h2 h3
    exact hne h1.symm

/-- Vanishing count over a dummy-version list, from the impossibility of
the recorded shape. -/
theorem count_dummyList_zero (iml : InternalModuleList) (name : String)
    (l : List ModVersion) (a : Violation)
    (h : ∀ req ∈ l, isInternalModuleName iml req.path = true →
      ¬ req.version = dummyCoreImportVersion →
      ¬ a = .nonDummyInternalVersion name req.path req.version dummyCoreImportVersion) :
    (dummyList iml name l).count a = 0 := by
  rw [List.count_eq_zero]
  intro hmem
  obtain ⟨req, hreq, hi, hd, hv⟩ := mem_dummyList hmem
  exact h req hreq hi hd hv

/-- The count of one expected dummy-version violation over a module's dummy
list is the number of matching requirements. -/
theorem count_dummyList_req (iml : InternalModuleList) (name : String)
    (l : List ModVersion) (p v : String)
    (hint : isInternalModuleName iml p = true) (hv : ¬ v = dummyCoreImportVersion) :
    (dummyList iml name l).count
      (.nonDummyInternalVersion name p v dummyCoreImportVersion) =
      (l.filter (fun r => r = ModVersion.mk p v)).length := by
  unfold dummyList
  refine count_flatMap_singleton _ _ _ (fun req => req = ModVersion.mk p v) ?_ ?_
  · intro req _ hkey
    rw [hkey]
    simp [hint, hv]
  · intro req _ hkey hmem
    by_cases hi : isInternalModuleName iml req.path = true
    · by_cases hd : req.version = dummyCoreImportVersion
      · simp [hi, hd] at hmem
      · simp [hi, hd] at hmem
        obtain ⟨h1, h2⟩ := hmem
        apply hkey
        rw [h1, h2]
    · simp [hi] at hmem

/-!
### Claim C2
-/

/-- C2, confirmed against the spec-modelled exemption-aware check: for a
module m occurring once under its name and a dependency path p that is a
key of the Canonical Override Map, if m requires p (exactly one
requirement on p, as in any well-formed manifest) and declares no override
entry for p at all, the override-consistency check emits exactly one
MissingOverride violation naming the module, the path and the expected
target, and none naming the module and path with any other target —
unless p is the core module's own path and m's importPath is in the
caller-supplied directImportExemptions set, in which case that requirement
produces zero MissingOverride violations for the module and path. -/
theorem checkReplaces_missingOverride_exempt (iml : InternalModuleList)
    (dIE : List String) (m : InternalModule) (p : String) (want : ModVersion)
    (hmem : iml.modules.filter (fun x => x.Name = m.Name) = [m])
    (hreq : (m.Module.require.filter (fun r => r.path = p)).length = 1)
    (hmap : mapLookup (buildReplaceMap iml) p = some want)
    (hnorep : ∀ r ∈ m.Module.replace, ¬ r.old.path = p) :
    (¬(p = iml.coreModule.Module.modulePath ∧ m.Name ∈ dIE) →
      (checkReplacesExempt iml dIE).count (.missingOverride m.Name p want) = 1 ∧
      ∀ w, ¬ w = want →
        (checkReplacesExempt iml dIE).count (.missingOverride m.Name p w) = 0) ∧
    (p = iml.coreModule.Module.modulePath → m.Name ∈ dIE →
      ∀ w, (checkReplacesExempt iml dIE).count (.missingOverride m.Name p w) = 0) := by
  have hfound : p ∉ foundList (buildReplaceMap iml) m.Module.replace := by
    intro hmemf
    obtain ⟨r, hr, hrp⟩ := mem_foundList hmemf
    exact hnorep r hr hrp
  constructor
  · intro hex
    constructor
    · rw [checkReplacesExempt_eq, count_flatMap,
        sum_map_single m.Name m iml.modules _ hmem
          (fun x hx => count_module_missing_zero _ _ _ x m.Name p want hx),
        checkReplacesModuleExempt_eq, List.count_append,
        count_missingOverride_mismatchList,
        count_missingListExempt_req _ _ _ _ _ _ _ _ hmap hfound hex]
      simp [hreq]
    · intro w hw
      rw [checkReplacesExempt_eq, count_flatMap]
      apply sum_map_zero
      intro x hx
      rw [checkReplacesModuleExempt_eq, List.count_append,
        count_missingOverride_mismatchList, count_missingListExempt_zero]
      intro req hreq2 cr hl hf hexq hv
      injection hv with h1 h2 h3
      rw [← h2, hmap] at hl
      injection hl with h4
      exact hw (h3.trans h4.symm)
  · intro hp hdie w
    rw [checkReplacesExempt_eq, count_flatMap]
    apply sum_map_zero
    intro x hx
    rw [checkReplacesModuleExempt_eq, List.count_append,
      count_missingOverride_mismatchList, count_missingListExempt_zero]
    intro req hreq2 cr hl hf hexq hv
    injection hv with h1 h2 h3
    apply hexq
    constructor
    · rw [← h2]; exact hp
    · rw [← h1]; exact hdie

/-- C2 witness: the c2Iml submodule requires the core module with no
override and is reported once; adding it to directImportExemptions removes
that finding. -/
theorem checkReplaces_missingOverride_exempt_witness :
    (checkReplacesExempt c2Iml []).count
      (.missingOverride "example.com/s" "example.com/core" ⟨"../../", ""⟩) = 1 ∧
    (checkReplacesExempt c2Iml ["example.com/s"]).count
      (.missingOverride "example.com/s" "example.com/core" ⟨"../../", ""⟩) = 0 := by
  constructor
  · have h := checkReplaces_missingOverride_exempt c2Iml [] c2Sub "example.com/core"
      ⟨"../../", ""⟩ (by decide) (by decide) (by decide) (by decide)
    exact (h.1 (by simp)).1
  · have h := checkReplaces_missingOverride_exempt c2Iml ["example.com/s"] c2Sub
      "example.com/core" ⟨"../../", ""⟩ (by decide) (by decide) (by decide) (by decide)
    exact h.2 (by decide) (by decide) ⟨"../../", ""⟩

/-!
### Claim C3
-/

/-- C3, confirmed against the spec-modelled exemption-aware check: a
module whose importPath is in noDummyExemptions is skipped entirely and
yields no dummy-version violation; otherwise a requirement on an internal
module name at a version other than the dummy placeholder yields exactly
one NonDummyInternalVersion violation carrying the module, the dependency
path, the observed version and the expected placeholder; and requirements
on non-internal paths are never checked. -/
theorem checkInternalModuleRequirements_dummy (iml : InternalModuleList)
    (nDE : List String) (m : InternalModule) (p v : String) :
    (m.Name ∈ nDE →
      ∀ q g w, Violation.nonDummyInternalVersion m.Name q g w ∉
        checkInternalModuleRequirementsExempt iml nDE) ∧
    (iml.modules.filter (fun x => x.Name = m.Name) = [m] →
      ¬ m.Name ∈ nDE →
      isInternalModuleName iml p = true →
      ¬ v = dummyCoreImportVersion →
      (m.Module.require.filter (fun r => r = ModVersion.mk p v)).length = 1 →
      (checkInternalModuleRequirementsExempt iml nDE).count
        (.nonDummyInternalVersion m.Name p v dummyCoreImportVersion) = 1) ∧
    (isInternalModuleName iml p = false →
      ∀ n g w, Violation.nonDummyInternalVersion n p g w ∉
        checkInternalModuleRequirementsExempt iml nDE) := by
  refine ⟨?_, ?_, ?_⟩
  · intro hin q g w hmemv
    rw [checkInternalModuleRequirementsExempt_eq, List.mem_flatMap] at hmemv
    obtain ⟨x, hx, hvx⟩ := hmemv
    by_cases hc : x.Name ∈ nDE
    · simp [hc] at hvx
    · rw [if_neg (by simpa using hc)] at hvx
      obtain ⟨req, hreq, hi, hd, hv⟩ := mem_dummyList hvx
      injection hv with h1 h2 h3 h4
      exact hc (h1 ▸ hin)
  · intro hmem hnin hint hvd hcount
    have hzero : ∀ x : InternalModule, ¬ x.Name = m.Name →
        ((if nDE.contains x.Name then [] else dummyList iml x.Name x.Module.require).count
          (Violation.nonDummyInternalVersion m.Name p v dummyCoreImportVersion)) = 0 := by
      intro x hx
      by_cases hc : x.Name ∈ nDE
      · simp [hc]
      · rw [if_neg (by simpa using hc)]
        apply count_dummyList_zero
        intro req hreq hi hd hv
        injection hv with h1 h2 h3 h4
        exact hx h1.symm
    rw [checkInternalModuleRequirementsExempt_eq, count_flatMap,
      sum_map_single m.Name m iml.modules _ hmem hzero,
      if_neg (by simpa using hnin),
      count_dummyList_req iml m.Name m.Module.require p v hint hvd]
    exact hcount
  · intro hni n g w hmemv
    rw [checkInternalModuleRequirementsExempt_eq, List.mem_flatMap] at hmemv
    obtain ⟨x, hx, hvx⟩ := hmemv
    by_cases hc : x.Name ∈ nDE
    · simp [hc] at hvx
    · rw [if_neg (by simpa using hc)] at hvx
      obtain ⟨req, hreq, hi, hd, hv⟩ := mem_dummyList hvx
      injection hv with h1 h2 h3 h4
      rw [← h2] at hi
      simp [hi] at hni
/-- C3 witness: the c3Iml submodule pins the core module at v1.2.3 and is
reported once; adding it to noDummyExemptions removes the finding. -/
theorem checkInternalModuleRequirements_dummy_witness :
    (checkInternalModuleRequirementsExempt c3Iml []).count
      (.nonDummyInternalVersion "example.com/s" "example.com/core" "v1.2.3"
        dummyCoreImportVersion) = 1 ∧
    Violation.nonDummyInternalVersion "example.com/s" "example.com/core" "v1.2.3"
        dummyCoreImportVersion ∉
      checkInternalModuleRequirementsExempt c3Iml ["example.com/s"] := by
  constructor
  · exact (checkInternalModuleRequirements_dummy c3Iml [] c3Sub "example.com/core"
      "v1.2.3").2.1 (by decide) (by decide) (by decide) (by decide) (by decide)
  · exact (checkInternalModuleRequirements_dummy c3Iml ["example.com/s"] c3Sub
      "example.com/core" "v1.2.3").1 (by decide) "example.com/core" "v1.2.3"
      dummyCoreImportVersion

/-!
### Claim C4
-/

/-- The count of one expected override-mismatch violation over a module's
mismatch list is the number of replace directives for the path, when that
path has exactly one declaring directive. -/
theorem count_mismatchList_req (rm : List (String × ModVersion)) (name : String)
    (l : List ReplaceStmt) (p : String) (r : ReplaceStmt) (want : ModVersion)
    (hrp : r.old.path = p)
    (huniq : ∀ x ∈ l, x.old.path = p → x = r)
    (hmap : mapLookup rm p = some want)
    (hne : ¬(r.new.path = want.path ∧ r.new.version = want.version)) :
    (mismatchList rm name l).count (.overrideMismatch name p r.new want) =
      (l.filter (fun x => x.old.path = p)).length := by
  unfold mismatchList
  refine count_flatMap_singleton _ _ _ (fun x : ReplaceStmt => x.old.path = p) ?_ ?_
  · intro x hx hkey
    have hxr : x = r := huniq x hx hkey
    subst hxr
    rw [hrp, hmap]
    simp [hne]
  · intro x hx hkey hmem
    cases hl : mapLookup rm x.old.path with
    | none => rw [hl] at hmem; simp at hmem
    | some e =>
      rw [hl] at hmem
      by_cases hc : x.new.path = e.path ∧ x.new.version = e.version
      · simp [hc] at hmem
      · simp [hc] at hmem
        exact hkey hmem.1.symm

/-- For a module with a different name, the per-module check contributes no
override-mismatch violation naming the target module. -/
theorem count_module_mismatch_zero (rm : List (String × ModVersion)) (x : InternalModule)
    (n q : String) (g w : ModVersion) (hne : ¬ x.Name = n) :
    (checkReplacesModule rm x).count (Violation.overrideMismatch n q g w) = 0 := by
  have h1 : (mismatchList rm x.Name x.Module.replace).count
      (Violation.overrideMismatch n q g w) = 0 := by
    rw [List.count_eq_zero]
    intro hmem
    obtain ⟨r, hr, e, hl, hc, hv⟩ := mem_mismatchList hmem
    injection hv with a1 a2 a3 a4
    exact hne a1.symm
  rw [checkReplacesModule_eq, List.count_append, h1, count_overrideMismatch_missingList]

set_option maxRecDepth 8192 in
/-- C4, counterexample: the claim states that the mismatch message
distinguishes the core-path case from the third-party case.  The same
mismatched path "example.com/core" is the core module's own path in c4ImlA
and a non-internal third-party pin in c4ImlB, yet both runs emit the same
violation, rendered through the single uniform message template — the
message contains the shared "All replaces should match the core go.mod
file" wording and no core-specific wording. -/
theorem overrideMismatch_message_counterexample :
    checkReplaces c4ImlA =
      [Violation.overrideMismatch "example.com/s" "example.com/core" ⟨"bad", ""⟩
        ⟨"../../", ""⟩] ∧
    checkReplaces c4ImlB =
      [Violation.overrideMismatch "example.com/s" "example.com/core" ⟨"bad", ""⟩
        ⟨"../../", ""⟩] ∧
    c4ImlA.coreModule.Module.modulePath = "example.com/core" ∧
    ¬ c4ImlB.coreModule.Module.modulePath = "example.com/core" ∧
    isInternalModuleName c4ImlB "example.com/core" = false ∧
    renderViolation
        (Violation.overrideMismatch "example.com/s" "example.com/core" ⟨"bad", ""⟩
          ⟨"../../", ""⟩) =
      "module \"example.com/s\" replaces \"example.com/core\" with \"bad \", but the expected replacement was \"../../ \". All replaces should match the core go.mod file and all internal modules should have local replacements" :=
  ⟨by decide, by decide, by decide, by decide, by decide, by decide⟩

/-- C4, amended: when a module m declares an override for a path p that is
a key of the Canonical Override Map (exactly one declaring directive, as
parsed from a manifest) and the declared target does not equal the
canonical entry in path and version, exactly one OverrideMismatch
violation carrying the module, path, declared target and expected target
is emitted; its message uses the single uniform template — "All replaces
should match the core go.mod file and all internal modules should have
local replacements" — whether p is the core module's own path or a
third-party dependency. -/
theorem checkReplaces_overrideMismatch (iml : InternalModuleList) (m : InternalModule)
    (p : String) (r : ReplaceStmt) (want : ModVersion)
    (hmem : iml.modules.filter (fun x => x.Name = m.Name) = [m])
    (hrep : m.Module.replace.filter (fun x => x.old.path = p) = [r])
    (hmap : mapLookup (buildReplaceMap iml) p = some want)
    (hne : ¬(r.new.path = want.path ∧ r.new.version = want.version)) :
    (checkReplaces iml).count (.overrideMismatch m.Name p r.new want) = 1 ∧
    renderViolation (.overrideMismatch m.Name p r.new want) =
      overrideMismatchMessage m.Name p r.new.path r.new.version want.path want.version := by
  have hrl : r ∈ m.Module.replace.filter (fun x => x.old.path = p) := by
    rw [hrep]; simp
  rw [List.mem_filter] at hrl
  have hrp : r.old.path = p := by simpa using hrl.2
  have huniq : ∀ x ∈ m.Module.replace, x.old.path = p → x = r := by
    intro x hx hxp
    have hxf : x ∈ m.Module.replace.filter (fun y => y.old.path = p) :=
      List.mem_filter.mpr ⟨hx, by simp [hxp]⟩
    rw [hrep] at hxf
    simpa using hxf
  constructor
  · rw [checkReplaces_eq, count_flatMap,
      sum_map_single m.Name m iml.modules _ hmem
        (fun x hx => count_module_mismatch_zero _ x m.Name p r.new want hx),
      checkReplacesModule_eq, List.count_append, count_overrideMismatch_missingList,
      count_mismatchList_req _ m.Name _ p r want hrp huniq hmap hne]
    simp [hrep]
  · rfl

/-- C4 witness: the c4ImlA submodule's wrong core override is reported
exactly once. -/
theorem checkReplaces_overrideMismatch_witness :
    (checkReplaces c4ImlA).count
      (.overrideMismatch "example.com/s" "example.com/core" ⟨"bad", ""⟩ ⟨"../../", ""⟩) = 1 :=
  (checkReplaces_overrideMismatch c4ImlA c4Sub "example.com/core"
    ⟨⟨"example.com/core", ""⟩, ⟨"bad", ""⟩⟩ ⟨"../../", ""⟩
    (by decide) (by decide) (by decide) (by decide)).1

/-!
### Claim C5
-/

set_option maxRecDepth 8192 in
/-- C5, confirmed: the validation pass runs all four rule checkers
unconditionally and returns the concatenation of every returned violation
in source order with no short-circuiting, and its ok verdict is true
exactly when the violation list is empty; on the c5Iml fixture, seeded
with exactly one independent problem per checker category, the list holds
exactly those four violations. -/
theorem validate_concatenates :
    (∀ iml goErrs, checkGoVersions iml = some goErrs →
      validate iml = some
        ((checkReplaces iml ++ optionToList (checkCoreModuleReplacements iml) ++
            checkInternalModuleRequirements iml ++ goErrs).isEmpty,
          checkReplaces iml ++ optionToList (checkCoreModuleReplacements iml) ++
            checkInternalModuleRequirements iml ++ goErrs) ∧
      ∀ ok errs, validate iml = some (ok, errs) → (ok = true ↔ errs = [])) ∧
    (validate c5Iml = some (false,
      [.overrideMismatch "example.com/a" "example.com/core" ⟨"../", ""⟩ ⟨"../../", ""⟩,
       .coreHasLocalOverride ["third.example/dep"],
       .nonDummyInternalVersion "example.com/b" "example.com/a" "v1.0.0"
         dummyCoreImportVersion,
       .toolchainVersionMismatch "example.com/b" "1.20" "1.21"]) ∧
     (validate c5Iml).map (fun res => res.2.length) = some 4) := by
  constructor
  · intro iml goErrs h
    constructor
    · unfold validate
      rw [h]
    · intro ok errs hv
      unfold validate at hv
      rw [h] at hv
      have hp := Option.some.inj hv
      cases hp
      exact List.isEmpty_iff
  · exact ⟨by decide, by decide⟩

/-- C5 witness: the characterization applied to the four-problem fixture,
whose toolchain checker returns exactly one violation. -/
theorem validate_concatenates_witness :
    validate c5Iml = some
      ((checkReplaces c5Iml ++ optionToList (checkCoreModuleReplacements c5Iml) ++
          checkInternalModuleRequirements c5Iml ++
          [Violation.toolchainVersionMismatch "example.com/b" "1.20" "1.21"]).isEmpty,
        checkReplaces c5Iml ++ optionToList (checkCoreModuleReplacements c5Iml) ++
          checkInternalModuleRequirements c5Iml ++
          [Violation.toolchainVersionMismatch "example.com/b" "1.20" "1.21"]) :=
  (validate_concatenates.1 c5Iml
    [Violation.toolchainVersionMismatch "example.com/b" "1.20" "1.21"] (by decide)).1
